import Mathlib

/-!
Verification of the allocation-comparison and purchase-recommendation core of
the portfolio dashboard script (src/Untitled-1.py).

The script builds a pandas frame from the submitted holdings and the fetched
prices, computes per-ticker value and actual weight, outer-merges with the
scraped index weights (filling absent cells with 0), sorts by target weight
descending, and then greedily picks the ticker whose simulated post-purchase
weight is closest to its target weight.

The embedding models pandas float cells with an explicit extended-value type
so that the NaN propagation the script relies on (missing prices, 0/0
weights, fillna) is represented faithfully.
-/

set_option maxRecDepth 100000

namespace Hobby

abbrev Ticker := String

/-- A pandas/numpy float cell: a finite rational, NaN, or a signed infinity.
Shares and prices are exact in the source inputs we consider, so finite cells
carry a rational. -/
inductive PyVal where
  | num (q : ℚ)
  | nan
  | inf
  | ninf
deriving DecidableEq, Repr

namespace PyVal

/-- IEEE-style addition as numpy performs it on float cells. -/
def add : PyVal → PyVal → PyVal
  | nan, _ => nan
  | _, nan => nan
  | num a, num b => num (a + b)
  | num _, inf => inf
  | inf, num _ => inf
  | num _, ninf => ninf
  | ninf, num _ => ninf
  | inf, inf => inf
  | ninf, ninf => ninf
  | inf, ninf => nan
  | ninf, inf => nan

/-- IEEE-style multiplication as numpy performs it on float cells. -/
def mul : PyVal → PyVal → PyVal
  | nan, _ => nan
  | _, nan => nan
  | num a, num b => num (a * b)
  | num a, inf => if 0 < a then inf else if a < 0 then ninf else nan
  | num a, ninf => if 0 < a then ninf else if a < 0 then inf else nan
  | inf, num b => if 0 < b then inf else if b < 0 then ninf else nan
  | ninf, num b => if 0 < b then ninf else if b < 0 then inf else nan
  | inf, inf => inf
  | inf, ninf => ninf
  | ninf, inf => ninf
  | ninf, ninf => inf

/-- IEEE-style subtraction as numpy performs it on float cells. -/
def sub : PyVal → PyVal → PyVal
  | nan, _ => nan
  | _, nan => nan
  | num a, num b => num (a - b)
  | num _, inf => ninf
  | num _, ninf => inf
  | inf, num _ => inf
  | ninf, num _ => ninf
  | inf, inf => nan
  | ninf, ninf => nan
  | inf, ninf => inf
  | ninf, inf => ninf

/-- IEEE-style division as numpy performs it on float cells: 0/0 is NaN and
x/0 for nonzero finite x is a signed infinity (numpy emits a warning but
produces the value). -/
def div : PyVal → PyVal → PyVal
  | nan, _ => nan
  | _, nan => nan
  | num a, num b =>
      if b = 0 then (if a = 0 then nan else if 0 < a then inf else ninf)
      else num (a / b)
  | num _, inf => num 0
  | num _, ninf => num 0
  | inf, num b => if b < 0 then ninf else inf
  | ninf, num b => if b < 0 then inf else ninf
  | inf, inf => nan
  | inf, ninf => nan
  | ninf, inf => nan
  | ninf, ninf => nan

/-- The effect of pandas fillna(0) on one cell: NaN becomes 0, every other
cell is unchanged. -/
def fillna0 : PyVal → PyVal
  | nan => num 0
  | v => v

/-- The rational payload of a finite cell; 0 for the non-finite cells. Used
only where the pipeline guarantees the cell is finite. -/
def toQ : PyVal → ℚ
  | num q => q
  | _ => 0

end PyVal

/-- One step of the pandas Series.sum fold with the default skipna=True: NaN
cells are skipped, every other cell is added. -/
def pyStep (acc v : PyVal) : PyVal :=
  match v with
  | .nan => acc
  | x => acc.add x

/-- pandas Series.sum with the default skipna=True; an empty or all-NaN
column sums to 0. -/
def pySum (l : List PyVal) : PyVal :=
  l.foldl pyStep (.num 0)

/-- Lookup in an association list, first match wins (Python dict / pandas
index semantics; the inputs the script builds have unique keys). -/
def qlookup : List (Ticker × ℚ) → Ticker → Option ℚ
  | [], _ => none
  | (k, v) :: l, t => if k = t then some v else qlookup l t

/-- The key column of an association list. -/
def keys (l : List (Ticker × ℚ)) : List Ticker := l.map Prod.fst

/-- Union of two key lists keeping the left list first, as pandas forms the
union of two indexes before sorting it. -/
def keyUnion (xs ys : List Ticker) : List Ticker :=
  xs ++ ys.filter (fun t => !decide (t ∈ xs))

/-- Insertion step of a stable insertion sort: the new element goes before
the first element it compares less-or-equal to. -/
def insertBy (le : α → α → Bool) (a : α) : List α → List α
  | [] => [a]
  | b :: l => if le a b then a :: b :: l else b :: insertBy le a l

/-- Stable insertion sort. Models the stable ascending sorts in the pipeline:
the index sort of the outer merge, the ascending argsort underlying
sort_values (numpy uses insertion sort on small inputs, where it is exactly
this), and Python list.sort, which is stable by specification. -/
def sortBy (le : α → α → Bool) : List α → List α
  | [] => []
  | a :: l => insertBy le a (sortBy le l)

/-- Boolean string comparison used for index sorting (pandas sorts the ASCII
ticker labels lexicographically, which is the String order). -/
def strLe (a b : Ticker) : Bool := decide (a ≤ b)

/-- Boolean rational comparison used for value sorting. -/
def ratLe (a b : ℚ) : Bool := decide (a ≤ b)

/-- First element of a list attaining the minimal sort key; the head of a
stable ascending sort. -/
def firstMinBy (le : α → α → Bool) : List α → Option α
  | [] => none
  | a :: l =>
    match firstMinBy le l with
    | none => some a
    | some b => if le a b then some a else some b

/-- The three inputs of the engine: the scraped index weights (ticker, weight
percent), the submitted holdings (ticker, shares), and the fetched prices
(ticker, price). -/
structure Inputs where
  nasdaq : List (Ticker × ℚ)
  portfolio : List (Ticker × ℚ)
  prices : List (Ticker × ℚ)

/-- Shares cell of the holdings frame: the submitted share count, NaN for a
ticker without a holdings entry (frame alignment on the union index). -/
def dfShares (I : Inputs) (t : Ticker) : PyVal :=
  match qlookup I.portfolio t with
  | some s => .num s
  | none => .nan

/-- Price cell of the holdings frame: the fetched price, NaN for a ticker
without a price entry. -/
def dfPrice (I : Inputs) (t : Ticker) : PyVal :=
  match qlookup I.prices t with
  | some p => .num p
  | none => .nan

/-- Value column: Shares times Price, hence NaN when either side is missing. -/
def dfValue (I : Inputs) (t : Ticker) : PyVal :=
  (dfShares I t).mul (dfPrice I t)

/-- Index of the holdings frame: the union of the holdings keys and the price
keys (pandas aligns the two Series on the sorted union of their indexes). -/
def dfIndex (I : Inputs) : List Ticker :=
  sortBy strLe (keyUnion (keys I.portfolio) (keys I.prices))

/-- Total portfolio value: sum of the Value column with NaN cells skipped. -/
def totalValue (I : Inputs) : PyVal :=
  pySum ((dfIndex I).map (dfValue I))

/-- Weight column: 100 times Value over the total value. -/
def dfWeight (I : Inputs) (t : Ticker) : PyVal :=
  ((PyVal.num 100).mul (dfValue I t)).div (totalValue I)

/-- Target weight cell after the outer merge: the scraped index weight, NaN
for a ticker absent from the scraped table. -/
def nasdaqWeight (I : Inputs) (t : Ticker) : PyVal :=
  match qlookup I.nasdaq t with
  | some w => .num w
  | none => .nan

/-- Index of the merged comparison frame: sorted union of the holdings frame
index and the scraped table index (outer join keys are sorted). -/
def comparisonIndex (I : Inputs) : List Ticker :=
  sortBy strLe (keyUnion (dfIndex I) (keys I.nasdaq))

/-- One row of the comparison frame after fillna(0): ticker, Shares, Price,
Value, actual weight percent, target weight percent, and their difference. -/
structure Row where
  ticker : Ticker
  shares : PyVal
  price : PyVal
  value : PyVal
  weight : PyVal
  target : PyVal
  diff : PyVal
deriving DecidableEq, Repr

/-- The comparison row of one ticker: the merged cells after fillna(0), with
the Difference column computed after the fill, as in the source. -/
def mkRow (I : Inputs) (t : Ticker) : Row :=
  let w := (dfWeight I t).fillna0
  let tw := (nasdaqWeight I t).fillna0
  ⟨t, (dfShares I t).fillna0, (dfPrice I t).fillna0, (dfValue I t).fillna0, w, tw, w.sub tw⟩

/-- The comparison frame in display order, realising the spec operation
computeComparison: one row per ticker of the merged index, sorted by target
weight descending. pandas sort_values with ascending=False performs an
ascending argsort and reverses the resulting order, which is what this
definition does. -/
def comparison (I : Inputs) : List Row :=
  (sortBy (fun r s => ratLe r.target.toQ s.target.toQ) ((comparisonIndex I).map (mkRow I))).reverse

/-- Projected absolute gap of one row: simulate adding the purchase amount to
this ticker only and compare the new weight with the target weight. The
denominator is nonzero in every run the script performs (total value is a sum
of nonnegative holdings values and the purchase amount is 1250). -/
def gapOf (totalUsd purchase : ℚ) (r : Row) : ℚ :=
  let newValue := r.value.toQ + purchase
  let newTotal := totalUsd + purchase
  let newWeight := 100 * newValue / newTotal
  |newWeight - r.target.toQ|

/-- The suggestion triples (ticker, projected gap, target weight) built by
the loop over the comparison rows, in row order. -/
def suggestionsOf (rows : List Row) (totalUsd purchase : ℚ) : List (Ticker × ℚ × ℚ) :=
  rows.map (fun r => (r.ticker, gapOf totalUsd purchase r, r.target.toQ))

/-- The failure the recommendation code can raise on its own: indexing the
first element of the empty suggestion list. -/
inductive PyErr where
  | indexError
deriving DecidableEq, Repr

/-- The rendered recommendation: ticker, share count, projected gap and
target weight. -/
structure Suggestion where
  ticker : Ticker
  sharesToBuy : PyVal
  projectedGap : ℚ
  targetWeight : ℚ
deriving DecidableEq, Repr

/-- The spec operation recommendPurchase as the source implements it: build
the suggestion triples, sort them by projected gap with Python's stable
list.sort, and take the first; the share count divides the purchase amount by
the frame price when the chosen ticker is on the holdings frame index and
otherwise by an externally fetched quote. -/
def recommendPurchase (rows : List Row) (totalUsd : ℚ) (held : List Ticker)
    (priceCol : Ticker → PyVal) (extPrice : Ticker → ℚ) (purchase : ℚ) :
    Except PyErr Suggestion :=
  match sortBy (fun a b => ratLe a.2.1 b.2.1) (suggestionsOf rows totalUsd purchase) with
  | [] => .error .indexError
  | (t, gap, tw) :: _ =>
    .ok ⟨t, (PyVal.num purchase).div (if t ∈ held then priceCol t else .num (extPrice t)), gap, tw⟩

/-- The fixed purchase amount of the script. -/
def purchaseAmount : ℚ := 1250

/-- The full recommendation pass of the script on given inputs, with the
external quote source (yfinance regularMarketPrice) as an oracle. -/
def runRecommend (I : Inputs) (extPrice : Ticker → ℚ) : Except PyErr Suggestion :=
  recommendPurchase (comparison I) (totalValue I).toQ (dfIndex I) (dfPrice I) extPrice purchaseAmount

/-- The sidebar loop building the holdings mapping: one slider per tracked
ticker, and only tickers with a strictly positive share count are inserted. -/
def buildPortfolio (top20 : List Ticker) (submitted : Ticker → ℕ) : List (Ticker × ℚ) :=
  (top20.filter (fun t => decide (0 < submitted t))).map (fun t => (t, (submitted t : ℚ)))

/-- External quote oracle returning 0 for every ticker (never consulted in
the runs that use it). -/
def extZero : Ticker → ℚ := fun _ => 0

/-- External quote oracle returning 200 for every ticker. -/
def ext200 : Ticker → ℚ := fun _ => 200

/-- The end-to-end scenario of the spec: two targets, two holdings, two
prices. -/
def scenarioInputs : Inputs :=
  ⟨[("AAPL", 40), ("MSFT", 60)], [("AAPL", 10), ("MSFT", 5)], [("AAPL", 100), ("MSFT", 200)]⟩

/-- A held ticker with no price entry (the spec's MissingPriceError trigger). -/
def missingPriceInputs : Inputs :=
  ⟨[], [("AAPL", 10)], []⟩

/-- A held ticker with zero shares and a positive price (the spec's
DegenerateInputError trigger). -/
def zeroSharesInputs : Inputs :=
  ⟨[], [("AAPL", 0)], [("AAPL", 150)]⟩

/-- Two target rows with equal target weight, one of them held. -/
def tieInputs : Inputs :=
  ⟨[("AAA", 50), ("BBB", 50)], [("AAA", 1)], [("AAA", 10)]⟩

/-- A target-only ticker that the recommendation will select even though it
has no price entry. -/
def unheldTickerInputs : Inputs :=
  ⟨[("MSFT", 60)], [("AAPL", 1)], [("AAPL", 100)]⟩

/-- Empty targets, holdings and prices. -/
def emptyInputs : Inputs :=
  ⟨[], [], []⟩

/-- A one-row comparison used to witness the selection theorem. -/
def oneRowDemo : Row :=
  ⟨"A", .num 1, .num 1, .num 1, .num 100, .num 0, .num 100⟩

/-- Ticker constant. -/
def tAAPL : Ticker := "AAPL"

/-- Ticker constant. -/
def tMSFT : Ticker := "MSFT"

/-- Ticker constant. -/
def tAAA : Ticker := "AAA"

/-- Ticker constant. -/
def tBBB : Ticker := "BBB"

/-- One-ticker universe for the holdings-construction witness. -/
def demoTop : List Ticker := [tAAPL]

/-- Submitted slider values for the holdings-construction witness. -/
def demoSubmitted : Ticker → ℕ := fun _ => 2

/-- Price table for the holdings-construction witness. -/
def demoPrices : List (Ticker × ℚ) := [(tAAPL, 10)]

/-- A tiny one-holding input used to witness the weight-sum theorem. -/
def simpleInputs : Inputs :=
  ⟨[], [("A", 2)], [("A", 3)]⟩

deriving instance DecidableEq for Except

/-! Association-list and sorting facts used throughout. -/

theorem qlookup_mem : ∀ {l : List (Ticker × ℚ)} {t : Ticker} {q : ℚ},
    qlookup l t = some q → (t, q) ∈ l := by
  intro l
  induction l with
  | nil => intro t q h; simp [qlookup] at h
  | cons p l ih =>
    intro t q h
    obtain ⟨k, v⟩ := p
    simp only [qlookup] at h
    split at h
    · next heq =>
      injection h with hv
      subst heq; subst hv
      exact List.mem_cons_self _ _
    · exact List.mem_cons_of_mem _ (ih h)

theorem mem_keys_of_qlookup {l : List (Ticker × ℚ)} {t : Ticker} {q : ℚ}
    (h : qlookup l t = some q) : t ∈ keys l := by
  have := qlookup_mem h
  exact List.mem_map.mpr ⟨(t, q), this, rfl⟩

theorem qlookup_eq_none : ∀ {l : List (Ticker × ℚ)} {t : Ticker},
    t ∉ keys l → qlookup l t = none := by
  intro l
  induction l with
  | nil => intro t _; rfl
  | cons p l ih =>
    intro t h
    obtain ⟨k, v⟩ := p
    simp only [keys, List.map_cons, List.mem_cons] at h
    push_neg at h
    simp only [qlookup]
    rw [if_neg (fun hk => h.1 hk.symm)]
    exact ih (by simpa [keys] using h.2)

theorem qlookup_of_mem_nodup : ∀ {l : List (Ticker × ℚ)}, (keys l).Nodup →
    ∀ {t : Ticker} {q : ℚ}, (t, q) ∈ l → qlookup l t = some q := by
  intro l
  induction l with
  | nil => intro _ t q h; simp at h
  | cons p l ih =>
    intro hnd t q h
    obtain ⟨k, v⟩ := p
    simp only [keys, List.map_cons, List.nodup_cons] at hnd
    rcases List.mem_cons.mp h with h1 | h2
    · injection h1 with h1a h1b
      subst h1a; subst h1b
      simp [qlookup]
    · have hk : k ≠ t := by
        intro hk
        exact hnd.1 (hk ▸ List.mem_map.mpr ⟨(t, q), h2, rfl⟩)
      simp only [qlookup, if_neg hk]
      exact ih hnd.2 h2

theorem mem_keyUnion {xs ys : List Ticker} {t : Ticker} :
    t ∈ keyUnion xs ys ↔ t ∈ xs ∨ t ∈ ys := by
  simp only [keyUnion, List.mem_append, List.mem_filter, Bool.not_eq_true',
    decide_eq_false_iff_not]
  tauto

theorem insertBy_perm (le : α → α → Bool) (a : α) :
    ∀ l : List α, (insertBy le a l).Perm (a :: l)
  | [] => List.Perm.refl _
  | b :: l => by
    simp only [insertBy]
    split
    · exact List.Perm.refl _
    · exact ((insertBy_perm le a l).cons b).trans (List.Perm.swap a b l)

theorem sortBy_perm (le : α → α → Bool) : ∀ l : List α, (sortBy le l).Perm l
  | [] => List.Perm.refl _
  | a :: l => (insertBy_perm le a (sortBy le l)).trans ((sortBy_perm le l).cons a)

theorem sortBy_eq_nil {le : α → α → Bool} {l : List α} (h : sortBy le l = []) : l = [] := by
  have hp := sortBy_perm le l
  rw [h] at hp
  exact hp.symm.eq_nil

theorem comparison_perm (I : Inputs) :
    (comparison I).Perm ((comparisonIndex I).map (mkRow I)) := by
  rw [comparison]
  exact (List.reverse_perm _).trans (sortBy_perm _ _)

theorem mem_dfIndex {I : Inputs} {t : Ticker} :
    t ∈ dfIndex I ↔ t ∈ keys I.portfolio ∨ t ∈ keys I.prices := by
  rw [dfIndex, (sortBy_perm _ _).mem_iff]
  exact mem_keyUnion

theorem mem_comparisonIndex {I : Inputs} {t : Ticker} :
    t ∈ comparisonIndex I ↔ (t ∈ keys I.portfolio ∨ t ∈ keys I.prices) ∨ t ∈ keys I.nasdaq := by
  rw [comparisonIndex, (sortBy_perm _ _).mem_iff, mem_keyUnion, mem_dfIndex]

theorem ticker_mkRow (I : Inputs) (t : Ticker) : (mkRow I t).ticker = t := rfl

theorem mem_comparison {I : Inputs} {r : Row} :
    r ∈ comparison I ↔ ∃ t ∈ comparisonIndex I, r = mkRow I t := by
  rw [comparison, List.mem_reverse, (sortBy_perm _ _).mem_iff, List.mem_map]
  constructor
  · rintro ⟨t, ht, rfl⟩
    exact ⟨t, ht, rfl⟩
  · rintro ⟨t, ht, rfl⟩
    exact ⟨t, ht, rfl⟩

theorem firstMinBy_ne_none {le : α → α → Bool} (a : α) (l : List α) :
    firstMinBy le (a :: l) ≠ none := by
  cases hm : firstMinBy le l with
  | none => simp [firstMinBy, hm]
  | some b =>
    simp only [firstMinBy, hm]
    split <;> simp

theorem insertBy_head_cons (le : α → α → Bool) (a b : α) (l : List α) :
    (insertBy le a (b :: l)).head? = some (if le a b then a else b) := by
  simp only [insertBy]
  split <;> simp_all

theorem sortBy_head? (le : α → α → Bool) : ∀ l : List α,
    (sortBy le l).head? = firstMinBy le l
  | [] => rfl
  | a :: l => by
    have ih := sortBy_head? le l
    show (insertBy le a (sortBy le l)).head? = _
    cases hs : sortBy le l with
    | nil =>
      have hl : l = [] := sortBy_eq_nil hs
      subst hl
      rfl
    | cons b s =>
      rw [hs] at ih
      simp only [List.head?] at ih
      rw [insertBy_head_cons]
      simp only [firstMinBy, ← ih]
      split <;> rfl

theorem firstMinBy_split {le : α → α → Bool}
    (htot : ∀ a b, le a b = true ∨ le b a = true)
    (htrans : ∀ a b c, le a b = true → le b c = true → le a c = true) :
    ∀ {l : List α} {a : α}, firstMinBy le l = some a →
      ∃ l₁ l₂, l = l₁ ++ a :: l₂ ∧ (∀ b ∈ l, le a b = true) ∧ (∀ b ∈ l₁, le b a = false) := by
  have hrefl : ∀ a, le a a = true := fun a => (htot a a).elim id id
  intro l
  induction l with
  | nil => intro a h; simp [firstMinBy] at h
  | cons c l ih =>
    intro a h
    cases hm : firstMinBy le l with
    | none =>
      simp only [firstMinBy, hm] at h
      injection h with h
      subst h
      cases l with
      | nil =>
        refine ⟨[], [], rfl, ?_, by simp⟩
        intro x hx
        rcases List.mem_cons.mp hx with h1 | h2
        · subst h1; exact hrefl _
        · simp at h2
      | cons x xs => exact absurd hm (firstMinBy_ne_none x xs)
    | some b =>
      simp only [firstMinBy, hm] at h
      obtain ⟨m₁, m₂, hsplit, hmin, hstrict⟩ := ih hm
      by_cases hcb : le c b = true
      · rw [if_pos hcb] at h
        injection h with h
        subst h
        refine ⟨[], l, rfl, ?_, by simp⟩
        intro x hx
        rcases List.mem_cons.mp hx with h1 | h2
        · subst h1; exact hrefl _
        · exact htrans _ b x hcb (hmin x h2)
      · rw [if_neg hcb] at h
        injection h with h
        subst h
        have hcb' : le c b = false := by simpa using hcb
        refine ⟨c :: m₁, m₂, by simp [hsplit], ?_, ?_⟩
        · intro x hx
          rcases List.mem_cons.mp hx with h1 | h2
          · rw [h1]; exact (htot c b).resolve_left hcb
          · exact hmin x h2
        · intro x hx
          rcases List.mem_cons.mp hx with h1 | h2
          · rw [h1]; exact hcb'
          · exact hstrict x h2

theorem insertBy_pairwise {le : α → α → Bool}
    (htot : ∀ a b, le a b = true ∨ le b a = true)
    (htrans : ∀ a b c, le a b = true → le b c = true → le a c = true)
    {R : α → α → Prop} :
    ∀ {l : List α} {a : α},
      l.Pairwise (fun x y => le x y = true ∧ (le y x = true → R x y)) →
      (∀ b ∈ l, R a b) →
      (insertBy le a l).Pairwise (fun x y => le x y = true ∧ (le y x = true → R x y)) := by
  intro l
  induction l with
  | nil => intro a _ _; simp [insertBy]
  | cons b s ih =>
    intro a hl ha
    rw [List.pairwise_cons] at hl
    obtain ⟨hbs, hs⟩ := hl
    simp only [insertBy]
    split
    · next hab =>
      rw [List.pairwise_cons]
      refine ⟨?_, List.pairwise_cons.mpr ⟨hbs, hs⟩⟩
      intro x hx
      rcases List.mem_cons.mp hx with h1 | h2
      · subst h1; exact ⟨hab, fun _ => ha _ (List.mem_cons_self _ _)⟩
      · exact ⟨htrans a b x hab (hbs x h2).1, fun _ => ha _ (List.mem_cons_of_mem _ h2)⟩
    · next hab =>
      have hab' : le a b = false := by
        cases hval : le a b
        · rfl
        · exact absurd hval hab
      have hba : le b a = true := (htot a b).resolve_left (by simp [hab'])
      rw [List.pairwise_cons]
      constructor
      · intro x hx
        rcases List.mem_cons.mp ((insertBy_perm le a s).mem_iff.mp hx) with h1 | h2
        · subst h1
          exact ⟨hba, fun hcontra => absurd hcontra (by simp [hab'])⟩
        · exact hbs x h2
      · exact ih hs (fun x hx => ha _ (List.mem_cons_of_mem _ hx))

theorem sortBy_pairwise {le : α → α → Bool}
    (htot : ∀ a b, le a b = true ∨ le b a = true)
    (htrans : ∀ a b c, le a b = true → le b c = true → le a c = true)
    {R : α → α → Prop} :
    ∀ {l : List α}, l.Pairwise R →
      (sortBy le l).Pairwise (fun x y => le x y = true ∧ (le y x = true → R x y)) := by
  intro l
  induction l with
  | nil => intro _; simp [sortBy]
  | cons a l ih =>
    intro hl
    rw [List.pairwise_cons] at hl
    exact insertBy_pairwise htot htrans (ih hl.2)
      (fun b hb => hl.1 b ((sortBy_perm le l).subset hb))

theorem insertBy_map {f : α → β} {lea : α → α → Bool} {leb : β → β → Bool}
    (hle : ∀ a b, leb (f a) (f b) = lea a b) (a : α) :
    ∀ l : List α, insertBy leb (f a) (l.map f) = (insertBy lea a l).map f
  | [] => rfl
  | b :: l => by
    simp only [List.map_cons, insertBy, hle]
    split
    · simp
    · simp [insertBy_map hle a l]

theorem sortBy_map {f : α → β} {lea : α → α → Bool} {leb : β → β → Bool}
    (hle : ∀ a b, leb (f a) (f b) = lea a b) :
    ∀ l : List α, sortBy leb (l.map f) = (sortBy lea l).map f
  | [] => rfl
  | a :: l => by
    simp only [List.map_cons, sortBy]
    rw [sortBy_map hle l, insertBy_map hle]

theorem pyFold_num : ∀ {l : List PyVal},
    (∀ v ∈ l, v ≠ PyVal.inf ∧ v ≠ PyVal.ninf) →
    ∀ a : ℚ, l.foldl pyStep (.num a) = .num (a + (l.map PyVal.toQ).sum)
  | [], _, a => by simp
  | v :: l, h, a => by
    have h' : ∀ w ∈ l, w ≠ PyVal.inf ∧ w ≠ PyVal.ninf :=
      fun w hw => h w (List.mem_cons_of_mem _ hw)
    cases v with
    | num q =>
      have hstep : pyStep (PyVal.num a) (PyVal.num q) = PyVal.num (a + q) := rfl
      rw [List.foldl_cons, hstep, pyFold_num h' (a + q)]
      simp only [List.map_cons, List.sum_cons, PyVal.toQ]
      congr 1
      ring
    | nan =>
      have hstep : pyStep (PyVal.num a) PyVal.nan = PyVal.num a := rfl
      rw [List.foldl_cons, hstep, pyFold_num h' a]
      simp only [List.map_cons, List.sum_cons, PyVal.toQ]
      congr 1
      ring
    | inf => exact absurd rfl (h _ (List.mem_cons_self _ _)).1
    | ninf => exact absurd rfl (h _ (List.mem_cons_self _ _)).2

theorem pySum_eq_num {l : List PyVal}
    (h : ∀ v ∈ l, v ≠ PyVal.inf ∧ v ≠ PyVal.ninf) :
    pySum l = .num ((l.map PyVal.toQ).sum) := by
  have := pyFold_num h 0
  simpa [pySum] using this

theorem qsum_nonneg : ∀ {l : List ℚ}, (∀ x ∈ l, 0 ≤ x) → 0 ≤ l.sum
  | [], _ => le_refl _
  | x :: l, h => by
    rw [List.sum_cons]
    have hx := h x (List.mem_cons_self _ _)
    have hl := qsum_nonneg (fun y hy => h y (List.mem_cons_of_mem _ hy))
    linarith

theorem qsum_eq_zero_mem : ∀ {l : List ℚ}, (∀ x ∈ l, 0 ≤ x) → l.sum = 0 →
    ∀ x ∈ l, x = 0
  | [], _, _, x, hx => by simp at hx
  | y :: l, h, hz, x, hx => by
    rw [List.sum_cons] at hz
    have hy := h y (List.mem_cons_self _ _)
    have hl := qsum_nonneg (fun z hz => h z (List.mem_cons_of_mem _ hz))
    have hy0 : y = 0 := by linarith
    have hl0 : l.sum = 0 := by linarith
    rcases List.mem_cons.mp hx with h1 | h2
    · rw [h1, hy0]
    · exact qsum_eq_zero_mem (fun z hz => h z (List.mem_cons_of_mem _ hz)) hl0 x h2

theorem qsum_pos {l : List ℚ} (hne : l ≠ []) (hp : ∀ x ∈ l, 0 < x) : 0 < l.sum := by
  cases l with
  | nil => exact absurd rfl hne
  | cons x l =>
    rw [List.sum_cons]
    have hx := hp x (List.mem_cons_self _ _)
    have hl := qsum_nonneg (fun y hy => le_of_lt (hp y (List.mem_cons_of_mem _ hy)))
    linarith

theorem filter_of_map (f : α → β) (p : β → Bool) :
    ∀ l : List α, (l.map f).filter p = (l.filter (fun a => p (f a))).map f
  | [] => rfl
  | a :: l => by
    simp only [List.map_cons, List.filter_cons]
    split
    · next h => simp [h, filter_of_map f p l]
    · next h => simp [h, filter_of_map f p l]

/-! Facts about the holdings frame columns. -/

theorem dfValue_num_or_nan (I : Inputs) (t : Ticker) :
    dfValue I t = PyVal.nan ∨ ∃ q, dfValue I t = PyVal.num q := by
  unfold dfValue dfShares dfPrice
  cases qlookup I.portfolio t <;> cases qlookup I.prices t <;>
    simp [PyVal.mul]

theorem dfValue_not_inf (I : Inputs) (t : Ticker) :
    dfValue I t ≠ PyVal.inf ∧ dfValue I t ≠ PyVal.ninf := by
  rcases dfValue_num_or_nan I t with h | ⟨q, h⟩ <;> rw [h] <;> exact ⟨by simp, by simp⟩

theorem dfValue_nan_of_no_shares (I : Inputs) {t : Ticker}
    (h : t ∉ keys I.portfolio) : dfValue I t = PyVal.nan := by
  unfold dfValue dfShares dfPrice
  rw [qlookup_eq_none h]
  cases qlookup I.prices t <;> rfl

theorem dfValue_nan_of_no_price (I : Inputs) {t : Ticker}
    (h : t ∉ keys I.prices) : dfValue I t = PyVal.nan := by
  unfold dfValue dfShares dfPrice
  rw [qlookup_eq_none h]
  cases qlookup I.portfolio t <;> rfl

theorem dfValue_lookup (I : Inputs) {t : Ticker} {s p : ℚ}
    (hs : qlookup I.portfolio t = some s) (hp : qlookup I.prices t = some p) :
    dfValue I t = PyVal.num (s * p) := by
  unfold dfValue dfShares dfPrice
  rw [hs, hp]
  rfl

theorem totalValue_eq (I : Inputs) :
    totalValue I = .num ((I.portfolio.map (fun e => (dfValue I e.1).toQ)).sum) := by
  have hnn : ∀ v ∈ (dfIndex I).map (dfValue I), v ≠ PyVal.inf ∧ v ≠ PyVal.ninf := by
    intro v hv
    obtain ⟨t, _, rfl⟩ := List.mem_map.mp hv
    exact dfValue_not_inf I t
  rw [totalValue, pySum_eq_num hnn, List.map_map]
  congr 1
  have hperm : ((dfIndex I).map (PyVal.toQ ∘ dfValue I)).Perm
      ((keyUnion (keys I.portfolio) (keys I.prices)).map (PyVal.toQ ∘ dfValue I)) :=
    (sortBy_perm _ _).map _
  rw [hperm.sum_eq, keyUnion, List.map_append, List.sum_append]
  have hz : (((keys I.prices).filter (fun t => !decide (t ∈ keys I.portfolio))).map
      (PyVal.toQ ∘ dfValue I)).sum = 0 := by
    apply List.sum_eq_zero
    intro x hx
    obtain ⟨t, ht, rfl⟩ := List.mem_map.mp hx
    have hmem := List.mem_filter.mp ht
    have hnot : t ∉ keys I.portfolio := by simpa using hmem.2
    simp [Function.comp, dfValue_nan_of_no_shares I hnot, PyVal.toQ]
  rw [hz, add_zero, keys, List.map_map]
  rfl

/-! The claim theorems. -/

/-- C1: end-to-end scenario. With targets AAPL 40 and MSFT 60, holdings
AAPL 10 and MSFT 5, prices AAPL 100 and MSFT 200, the comparison has values
1000 and 1000, total 2000, actual weights 50 and 50, differences plus 10 for
AAPL and minus 10 for MSFT; with purchase amount 1250 the recommendation is
MSFT with 1250/200 = 6.25 shares, projected gap 120/13 (about 9.23, within
0.01 of it) and target weight 60. -/
theorem C1_end_to_end :
    comparison scenarioInputs =
      [⟨tMSFT, PyVal.num 5, PyVal.num 200, PyVal.num 1000, PyVal.num 50, PyVal.num 60,
          PyVal.num (-10)⟩,
        ⟨tAAPL, PyVal.num 10, PyVal.num 100, PyVal.num 1000, PyVal.num 50, PyVal.num 40,
          PyVal.num 10⟩] ∧
    totalValue scenarioInputs = PyVal.num 2000 ∧
    runRecommend scenarioInputs extZero = Except.ok ⟨tMSFT, PyVal.num (25/4), 120/13, 60⟩ ∧
    |(120 : ℚ)/13 - 923/100| < 1/100 := by
  exact ⟨by with_unfolding_all decide, by with_unfolding_all decide, by with_unfolding_all decide, by with_unfolding_all decide⟩

/-- C5 counterexample: with a held ticker AAPL (10 shares) and an empty
price table, the comparison computation does not fail with any
MissingPriceError; it returns a row for AAPL whose value and weight are 0
(the NaN value is silently turned into 0 by fillna). -/
theorem C5_missing_price_counterexample :
    comparison missingPriceInputs =
      [⟨tAAPL, PyVal.num 10, PyVal.num 0, PyVal.num 0, PyVal.num 0, PyVal.num 0,
          PyVal.num 0⟩] := by
  with_unfolding_all decide

/-- C6 counterexample: with holdings AAPL 0 and price AAPL 150 the total
held value is 0, the in-frame weight is NaN (0/0) rather than an error, and
the comparison still returns normally with the NaN weight filled to 0; no
DegenerateInputError exists in the program. -/
theorem C6_zero_total_counterexample :
    totalValue zeroSharesInputs = PyVal.num 0 ∧
    dfWeight zeroSharesInputs tAAPL = PyVal.nan ∧
    comparison zeroSharesInputs =
      [⟨tAAPL, PyVal.num 0, PyVal.num 150, PyVal.num 0, PyVal.num 0, PyVal.num 0,
          PyVal.num 0⟩] := by
  exact ⟨by with_unfolding_all decide, by with_unfolding_all decide, by with_unfolding_all decide⟩

/-- C3 counterexample: for the non-empty holdings mapping AAPL 0 whose only
ticker has the positive price 150, the actual weights of the held tickers
sum to 0, not 100, because the 0/0 weight is NaN and fillna maps it to 0. -/
theorem C3_zero_shares_counterexample :
    (((comparison zeroSharesInputs).filter
        (fun r => decide (r.ticker ∈ keys zeroSharesInputs.portfolio))).map
      (fun r => r.weight.toQ)).sum ≠ 100 := by
  with_unfolding_all decide

/-- C9 counterexample: with two target rows of equal target weight 50 the
displayed order is BBB before AAA, ticker descending, because pandas sorts
ascending and reverses; the claimed ticker-ascending tie order is violated. -/
theorem C9_tie_order_counterexample :
    (comparison tieInputs).map (fun r => (r.ticker, r.target)) =
      [(tBBB, PyVal.num 50), (tAAA, PyVal.num 50)] := by
  with_unfolding_all decide

/-- C7 counterexample: when the selected ticker MSFT has no entry in the
price table (and is not held), recommendPurchase does not fail with any
MissingPriceError: it fetches a quote from the external source (here 200)
and returns 6.25 shares. -/
theorem C7_external_price_counterexample :
    runRecommend unheldTickerInputs ext200 =
      Except.ok ⟨tMSFT, PyVal.num (25/4), 880/27, 60⟩ ∧
    tMSFT ∉ keys unheldTickerInputs.prices ∧
    tMSFT ∉ keys unheldTickerInputs.portfolio := by
  exact ⟨by with_unfolding_all decide, by with_unfolding_all decide, by with_unfolding_all decide⟩

/-- C8 counterexample: on empty targets, holdings and prices the
recommendation pass fails by taking the head of the empty suggestion list (a
plain index error); no distinct NoCandidatesError exists in the program. -/
theorem C8_empty_rows_counterexample :
    runRecommend emptyInputs extZero = Except.error PyErr.indexError := by
  with_unfolding_all decide

/-- C8 amended: for an empty comparison row sequence, recommendPurchase
fails, but with the generic index error of reading the first element of the
empty suggestion list, not with a distinct NoCandidatesError. -/
theorem C8_empty_rows_amended (totalUsd : ℚ) (held : List Ticker)
    (priceCol : Ticker → PyVal) (extPrice : Ticker → ℚ) (purchase : ℚ) :
    recommendPurchase [] totalUsd held priceCol extPrice purchase =
      Except.error PyErr.indexError := rfl

theorem sortBy_key_split {key : α → ℚ} {l : List α} {a : α} {rest : List α}
    (hs : sortBy (fun x y => ratLe (key x) (key y)) l = a :: rest) :
    ∃ l₁ l₂, l = l₁ ++ a :: l₂ ∧ (∀ b ∈ l, key a ≤ key b) ∧ (∀ b ∈ l₁, key a < key b) := by
  have htot : ∀ x y : α, (fun x y => ratLe (key x) (key y)) x y = true ∨
      (fun x y => ratLe (key x) (key y)) y x = true := by
    intro x y
    by_cases h : key x ≤ key y
    · exact Or.inl (by simpa [ratLe] using h)
    · exact Or.inr (by simpa [ratLe] using le_of_not_le h)
  have htrans : ∀ x y z : α, (fun x y => ratLe (key x) (key y)) x y = true →
      (fun x y => ratLe (key x) (key y)) y z = true →
      (fun x y => ratLe (key x) (key y)) x z = true := by
    intro x y z hxy hyz
    simp only [ratLe, decide_eq_true_eq] at hxy hyz ⊢
    exact le_trans hxy hyz
  have hhead : firstMinBy (fun x y => ratLe (key x) (key y)) l = some a := by
    rw [← sortBy_head?, hs]
    rfl
  obtain ⟨l₁, l₂, hsplit, hmin, hstrict⟩ := firstMinBy_split htot htrans hhead
  refine ⟨l₁, l₂, hsplit, ?_, ?_⟩
  · intro b hb
    have := hmin b hb
    simpa [ratLe] using this
  · intro b hb
    have := hstrict b hb
    simp only [ratLe, decide_eq_false_iff_not] at this
    exact lt_of_not_le this

/-- C2: for every non-empty sequence of comparison rows, recommendPurchase
selects the row whose simulated post-purchase absolute gap
100 times (value plus purchase) over (total plus purchase) minus target, in
absolute value, is minimal, and among rows attaining the minimum the first
in input order wins (Python list.sort is stable), so the selection is
deterministic; in particular a unique minimizer is always selected. The
nonzero-denominator hypothesis records that the simulated total is nonzero,
as in every run the script performs. -/
theorem C2_stable_selection (rows : List Row) (totalUsd purchase : ℚ)
    (held : List Ticker) (priceCol : Ticker → PyVal) (extPrice : Ticker → ℚ)
    (hne : rows ≠ []) (hden : totalUsd + purchase ≠ 0) :
    ∃ (r : Row) (l₁ l₂ : List Row) (s : Suggestion),
      rows = l₁ ++ r :: l₂ ∧
      recommendPurchase rows totalUsd held priceCol extPrice purchase = .ok s ∧
      s.ticker = r.ticker ∧
      s.projectedGap = gapOf totalUsd purchase r ∧
      s.targetWeight = r.target.toQ ∧
      (∀ x ∈ rows, gapOf totalUsd purchase r ≤ gapOf totalUsd purchase x) ∧
      (∀ x ∈ l₁, gapOf totalUsd purchase r < gapOf totalUsd purchase x) := by
  obtain ⟨r, rest, hs⟩ : ∃ r rest,
      sortBy (fun x y : Row => ratLe (gapOf totalUsd purchase x) (gapOf totalUsd purchase y))
        rows = r :: rest := by
    cases hs : sortBy (fun x y : Row =>
        ratLe (gapOf totalUsd purchase x) (gapOf totalUsd purchase y)) rows with
    | nil => exact absurd (sortBy_eq_nil hs) hne
    | cons r rest => exact ⟨r, rest, rfl⟩
  obtain ⟨l₁, l₂, hsplit, hmin, hstrict⟩ := sortBy_key_split hs
  have hcomm : ∀ l : List Row,
      sortBy (fun a b => ratLe a.2.1 b.2.1)
          (l.map (fun x : Row => (x.ticker, gapOf totalUsd purchase x, x.target.toQ)))
        = (sortBy (fun x y : Row =>
              ratLe (gapOf totalUsd purchase x) (gapOf totalUsd purchase y)) l).map
            (fun x : Row => (x.ticker, gapOf totalUsd purchase x, x.target.toQ)) :=
    sortBy_map (fun _ _ => rfl)
  refine ⟨r, l₁, l₂,
    ⟨r.ticker,
      (PyVal.num purchase).div
        (if r.ticker ∈ held then priceCol r.ticker else PyVal.num (extPrice r.ticker)),
      gapOf totalUsd purchase r, r.target.toQ⟩,
    hsplit, ?_, rfl, rfl, rfl, hmin, hstrict⟩
  rw [recommendPurchase,
    show suggestionsOf rows totalUsd purchase
        = rows.map (fun x : Row => (x.ticker, gapOf totalUsd purchase x, x.target.toQ)) from rfl,
    hcomm rows, hs, List.map_cons]

/-- C2 witness: the selection theorem applied to the one-row comparison,
with both hypotheses discharged concretely. -/
theorem C2_stable_selection_witness :
    ∃ (r : Row) (l₁ l₂ : List Row) (s : Suggestion),
      [oneRowDemo] = l₁ ++ r :: l₂ ∧
      recommendPurchase [oneRowDemo] 1 [] (fun _ => PyVal.nan) extZero 1250 = .ok s ∧
      s.ticker = r.ticker ∧
      s.projectedGap = gapOf 1 1250 r ∧
      s.targetWeight = r.target.toQ ∧
      (∀ x ∈ [oneRowDemo], gapOf 1 1250 r ≤ gapOf 1 1250 x) ∧
      (∀ x ∈ l₁, gapOf 1 1250 r < gapOf 1 1250 x) :=
  C2_stable_selection [oneRowDemo] 1 1250 [] (fun _ => PyVal.nan) extZero
    (by simp) (by norm_num)

theorem pairwise_true : ∀ l : List α, l.Pairwise (fun _ _ => True)
  | [] => List.Pairwise.nil
  | _ :: l => List.Pairwise.cons (fun _ _ => trivial) (pairwise_true l)

theorem strLe_total (a b : Ticker) : strLe a b = true ∨ strLe b a = true := by
  by_cases h : a ≤ b
  · exact Or.inl (by simpa [strLe] using h)
  · exact Or.inr (by simpa [strLe] using le_of_not_le h)

theorem strLe_trans (a b c : Ticker) (hab : strLe a b = true) (hbc : strLe b c = true) :
    strLe a c = true := by
  simp only [strLe, decide_eq_true_eq] at hab hbc ⊢
  exact le_trans hab hbc

theorem comparisonIndex_pairwise (I : Inputs) :
    (comparisonIndex I).Pairwise (fun a b : Ticker => a ≤ b) := by
  have h := sortBy_pairwise strLe_total strLe_trans
    (pairwise_true (keyUnion (dfIndex I) (keys I.nasdaq)))
  exact h.imp (fun hab => by simpa [strLe] using hab.1)

/-- C9 amended: the displayed comparison rows are ordered by non-increasing
target weight, and rows with equal target weight appear with tickers
descending, not ascending: pandas sort_values with ascending=False performs
an ascending argsort of the ticker-ascending merged frame and then reverses
it, so equal keys end up in reversed (descending) ticker order. -/
theorem C9_display_order_amended (I : Inputs) :
    (comparison I).Pairwise (fun r s =>
      s.target.toQ ≤ r.target.toQ ∧ (r.target.toQ ≤ s.target.toQ → s.ticker ≤ r.ticker)) := by
  have hidx : ((comparisonIndex I).map (mkRow I)).Pairwise
      (fun r s : Row => r.ticker ≤ s.ticker) :=
    (comparisonIndex_pairwise I).map _ (fun a b hab => by
      rw [ticker_mkRow, ticker_mkRow]; exact hab)
  have htot : ∀ r s : Row,
      (fun r s : Row => ratLe r.target.toQ s.target.toQ) r s = true ∨
      (fun r s : Row => ratLe r.target.toQ s.target.toQ) s r = true := by
    intro r s
    by_cases h : r.target.toQ ≤ s.target.toQ
    · exact Or.inl (by simpa [ratLe] using h)
    · exact Or.inr (by simpa [ratLe] using le_of_not_le h)
  have htrans : ∀ r s u : Row,
      (fun r s : Row => ratLe r.target.toQ s.target.toQ) r s = true →
      (fun r s : Row => ratLe r.target.toQ s.target.toQ) s u = true →
      (fun r s : Row => ratLe r.target.toQ s.target.toQ) r u = true := by
    intro r s u hrs hsu
    simp only [ratLe, decide_eq_true_eq] at hrs hsu ⊢
    exact le_trans hrs hsu
  have hsorted := sortBy_pairwise htot htrans hidx
  unfold comparison
  refine List.pairwise_reverse.mpr (hsorted.imp ?_)
  intro r s hrs
  obtain ⟨h1, h2⟩ := hrs
  simp only [ratLe, decide_eq_true_eq] at h1 h2
  exact ⟨h1, fun hle => h2 (by simpa [ratLe] using hle)⟩

/-- C4: union completeness and missing-side defaults. Under the program's
input shape (deduplicated target tickers, a holdings mapping, and prices
fetched for exactly the held tickers), the comparison has exactly one row
per ticker of the union of the target and holdings tickers, with no
duplicates and none dropped; a ticker only in targets has actual weight 0
and a ticker only in holdings has target weight 0. -/
theorem C4_union_completeness (I : Inputs)
    (hn : (keys I.nasdaq).Nodup) (hp : (keys I.portfolio).Nodup)
    (hpr : ∀ t ∈ keys I.prices, t ∈ keys I.portfolio) :
    ((comparison I).map Row.ticker).Perm (keyUnion (keys I.portfolio) (keys I.nasdaq)) ∧
    (keyUnion (keys I.portfolio) (keys I.nasdaq)).Nodup ∧
    (∀ r ∈ comparison I, r.ticker ∉ keys I.portfolio → r.weight = PyVal.num 0) ∧
    (∀ r ∈ comparison I, r.ticker ∉ keys I.nasdaq → r.target = PyVal.num 0) := by
  have hKU : keyUnion (keys I.portfolio) (keys I.prices) = keys I.portfolio := by
    rw [keyUnion]
    have hnil : (keys I.prices).filter (fun t => !decide (t ∈ keys I.portfolio)) = [] := by
      rw [List.filter_eq_nil_iff]
      intro t ht
      simp [hpr t ht]
    rw [hnil, List.append_nil]
  have hdfp : (dfIndex I).Perm (keys I.portfolio) := by
    unfold dfIndex
    rw [hKU]
    exact sortBy_perm _ _
  have hmemdf : ∀ t, t ∈ dfIndex I ↔ t ∈ keys I.portfolio := by
    intro t
    rw [mem_dfIndex]
    constructor
    · rintro (h | h)
      · exact h
      · exact hpr t h
    · exact Or.inl
  have hfiltereq : (keys I.nasdaq).filter (fun t => !decide (t ∈ dfIndex I))
      = (keys I.nasdaq).filter (fun t => !decide (t ∈ keys I.portfolio)) := by
    apply List.filter_congr
    intro t _
    simp [hmemdf t]
  have hcmpidx : (comparisonIndex I).Perm (keyUnion (keys I.portfolio) (keys I.nasdaq)) := by
    unfold comparisonIndex
    refine (sortBy_perm _ _).trans ?_
    rw [keyUnion, keyUnion, hfiltereq]
    exact hdfp.append (List.Perm.refl _)
  refine ⟨?_, ?_, ?_, ?_⟩
  · have h1 : ((comparison I).map Row.ticker).Perm
        (((comparisonIndex I).map (mkRow I)).map Row.ticker) := (comparison_perm I).map _
    rw [List.map_map] at h1
    have h2 : (comparisonIndex I).map (Row.ticker ∘ mkRow I) = comparisonIndex I := by
      have hid : (Row.ticker ∘ mkRow I) = id := funext (fun t => ticker_mkRow I t)
      rw [hid, List.map_id]
    rw [h2] at h1
    exact h1.trans hcmpidx
  · rw [keyUnion]
    refine List.Nodup.append hp (hn.filter _) ?_
    intro t htp htf
    have hmem := (List.mem_filter.mp htf).2
    simp at hmem
    exact hmem htp
  · intro r hr hnp
    obtain ⟨t, ht, rfl⟩ := mem_comparison.mp hr
    rw [ticker_mkRow] at hnp
    have hval : dfValue I t = PyVal.nan := dfValue_nan_of_no_shares I hnp
    have hw : dfWeight I t = PyVal.nan := by
      unfold dfWeight
      rw [hval]
      have hmn : (PyVal.num 100).mul PyVal.nan = PyVal.nan := rfl
      rw [hmn]
      cases totalValue I <;> rfl
    simp [mkRow, hw, PyVal.fillna0]
  · intro r hr hnt
    obtain ⟨t, ht, rfl⟩ := mem_comparison.mp hr
    rw [ticker_mkRow] at hnt
    have hnw : nasdaqWeight I t = PyVal.nan := by
      unfold nasdaqWeight
      rw [qlookup_eq_none hnt]
    simp [mkRow, hnw, PyVal.fillna0]

/-- C4 witness: the union-completeness theorem applied to the end-to-end
scenario inputs, all hypotheses discharged by evaluation. -/
theorem C4_union_completeness_witness :
    ((comparison scenarioInputs).map Row.ticker).Perm
      (keyUnion (keys scenarioInputs.portfolio) (keys scenarioInputs.nasdaq)) ∧
    (keyUnion (keys scenarioInputs.portfolio) (keys scenarioInputs.nasdaq)).Nodup ∧
    (∀ r ∈ comparison scenarioInputs,
      r.ticker ∉ keys scenarioInputs.portfolio → r.weight = PyVal.num 0) ∧
    (∀ r ∈ comparison scenarioInputs,
      r.ticker ∉ keys scenarioInputs.nasdaq → r.target = PyVal.num 0) :=
  C4_union_completeness scenarioInputs (by with_unfolding_all decide)
    (by with_unfolding_all decide) (by with_unfolding_all decide)

theorem dfWeight_nan_of_value_nan (I : Inputs) {t : Ticker}
    (h : dfValue I t = PyVal.nan) : dfWeight I t = PyVal.nan := by
  unfold dfWeight
  rw [h]
  have hmn : (PyVal.num 100).mul PyVal.nan = PyVal.nan := rfl
  rw [hmn]
  cases totalValue I <;> rfl

/-- C5 amended: a held ticker with nonzero shares and no price entry does
not make the computation fail: its value and weight cells are NaN inside the
frame (the NaN value is also skipped in the total), and the merge-stage
fillna(0) silently renders them as 0 in the comparison; no MissingPriceError
is raised anywhere. -/
theorem C5_missing_price_amended (I : Inputs) (t : Ticker) (s : ℚ)
    (hmem : (t, s) ∈ I.portfolio) (hs : s ≠ 0) (hnp : t ∉ keys I.prices) :
    dfValue I t = PyVal.nan ∧ dfWeight I t = PyVal.nan ∧
    ∀ r ∈ comparison I, r.ticker = t → r.value = PyVal.num 0 ∧ r.weight = PyVal.num 0 := by
  have hval : dfValue I t = PyVal.nan := dfValue_nan_of_no_price I hnp
  have hw : dfWeight I t = PyVal.nan := dfWeight_nan_of_value_nan I hval
  refine ⟨hval, hw, ?_⟩
  intro r hr hticker
  obtain ⟨u, hu, rfl⟩ := mem_comparison.mp hr
  rw [ticker_mkRow] at hticker
  subst hticker
  constructor
  · simp [mkRow, hval, PyVal.fillna0]
  · simp [mkRow, hw, PyVal.fillna0]

/-- C5 witness: the amended missing-price theorem applied to holdings
AAPL 10 with an empty price table. -/
theorem C5_missing_price_amended_witness :
    dfValue missingPriceInputs tAAPL = PyVal.nan ∧
    dfWeight missingPriceInputs tAAPL = PyVal.nan ∧
    ∀ r ∈ comparison missingPriceInputs, r.ticker = tAAPL →
      r.value = PyVal.num 0 ∧ r.weight = PyVal.num 0 :=
  C5_missing_price_amended missingPriceInputs tAAPL 10
    (by with_unfolding_all decide) (by norm_num) (by with_unfolding_all decide)

/-- C6 amended: when the total held value is zero (with nonnegative shares
and prices, as the program guarantees), computeComparison does not fail:
every weight cell is NaN inside the frame (0/0 or missing data), and the
fillna(0) renders every comparison row weight as 0; no DegenerateInputError
is raised anywhere. -/
theorem C6_zero_total_amended (I : Inputs)
    (hsh : ∀ e ∈ I.portfolio, 0 ≤ e.2)
    (hpr : ∀ e ∈ I.prices, 0 ≤ e.2)
    (htot : totalValue I = PyVal.num 0) :
    (∀ t : Ticker, dfWeight I t = PyVal.nan) ∧
    (∀ r ∈ comparison I, r.weight = PyVal.num 0) := by
  have hvnn : ∀ t : Ticker, 0 ≤ (dfValue I t).toQ := by
    intro t
    unfold dfValue dfShares dfPrice
    cases hs : qlookup I.portfolio t with
    | none => cases qlookup I.prices t <;> simp [PyVal.mul, PyVal.toQ]
    | some s =>
      cases hp : qlookup I.prices t with
      | none => simp [PyVal.mul, PyVal.toQ]
      | some p =>
        have h1 := hsh _ (qlookup_mem hs)
        have h2 := hpr _ (qlookup_mem hp)
        simp only [PyVal.mul, PyVal.toQ]
        exact mul_nonneg h1 h2
  have hzero : ∀ x ∈ I.portfolio.map (fun e => (dfValue I e.1).toQ), x = 0 := by
    have hTeq := totalValue_eq I
    rw [htot] at hTeq
    injection hTeq with hTeq
    refine qsum_eq_zero_mem ?_ hTeq.symm
    intro x hx
    obtain ⟨e, _, rfl⟩ := List.mem_map.mp hx
    exact hvnn e.1
  have hwnan : ∀ t : Ticker, dfWeight I t = PyVal.nan := by
    intro t
    cases hs : qlookup I.portfolio t with
    | none =>
      refine dfWeight_nan_of_value_nan I ?_
      unfold dfValue dfShares dfPrice
      rw [hs]
      cases qlookup I.prices t <;> rfl
    | some s =>
      cases hp : qlookup I.prices t with
      | none =>
        refine dfWeight_nan_of_value_nan I ?_
        unfold dfValue dfShares dfPrice
        rw [hp]
        cases qlookup I.portfolio t <;> rfl
      | some p =>
        have hval : dfValue I t = PyVal.num (s * p) := dfValue_lookup I hs hp
        have hsp : s * p = 0 := by
          have hmemmap : (dfValue I t).toQ ∈ I.portfolio.map (fun e => (dfValue I e.1).toQ) :=
            List.mem_map.mpr ⟨(t, s), qlookup_mem hs, rfl⟩
          have hx := hzero _ hmemmap
          rw [hval] at hx
          simpa [PyVal.toQ] using hx
        unfold dfWeight
        rw [hval, htot]
        have hmul : (PyVal.num 100).mul (PyVal.num (s * p)) = PyVal.num 0 := by
          simp [PyVal.mul, hsp]
        rw [hmul]
        simp [PyVal.div]
  refine ⟨hwnan, ?_⟩
  intro r hr
  obtain ⟨t, ht, rfl⟩ := mem_comparison.mp hr
  simp [mkRow, hwnan t, PyVal.fillna0]

/-- C6 witness: the amended zero-total theorem applied to holdings AAPL 0
with price AAPL 150. -/
theorem C6_zero_total_amended_witness :
    (∀ t : Ticker, dfWeight zeroSharesInputs t = PyVal.nan) ∧
    (∀ r ∈ comparison zeroSharesInputs, r.weight = PyVal.num 0) :=
  C6_zero_total_amended zeroSharesInputs (by with_unfolding_all decide)
    (by with_unfolding_all decide) (by with_unfolding_all decide)

/-- C3 amended: for every non-empty holdings mapping with strictly positive
share counts whose tickers all have strictly positive prices, the actual
weights of the held comparison rows sum to exactly 100. The
strictly-positive-shares condition is what the sidebar loop guarantees for
every submitted portfolio and is the correction the zero-shares
counterexample forces on the claim as stated. -/
theorem C3_weights_sum_amended (I : Inputs) (hne : I.portfolio ≠ [])
    (hnd : (keys I.portfolio).Nodup)
    (hsh : ∀ e ∈ I.portfolio, 0 < e.2)
    (hpr : ∀ e ∈ I.portfolio, ∃ q, qlookup I.prices e.1 = some q ∧ 0 < q) :
    (((comparison I).filter (fun r => decide (r.ticker ∈ keys I.portfolio))).map
      (fun r => r.weight.toQ)).sum = 100 := by
  have hpos : ∀ x ∈ I.portfolio.map (fun e => (dfValue I e.1).toQ), 0 < x := by
    intro x hx
    obtain ⟨e, he, rfl⟩ := List.mem_map.mp hx
    obtain ⟨q, hq, hq0⟩ := hpr e he
    have hs : qlookup I.portfolio e.1 = some e.2 := qlookup_of_mem_nodup hnd he
    rw [dfValue_lookup I hs hq]
    have hmul := mul_pos (hsh e he) hq0
    simpa [PyVal.toQ] using hmul
  have hTpos : 0 < (I.portfolio.map (fun e => (dfValue I e.1).toQ)).sum := by
    refine qsum_pos ?_ hpos
    intro hmap
    exact hne (List.map_eq_nil_iff.mp hmap)
  have hTne : (I.portfolio.map (fun e => (dfValue I e.1).toQ)).sum ≠ 0 :=
    ne_of_gt hTpos
  have hfilter : ((comparison I).filter
        (fun r => decide (r.ticker ∈ keys I.portfolio))).Perm
      (((comparisonIndex I).filter (fun t => decide (t ∈ keys I.portfolio))).map
        (mkRow I)) := by
    refine ((comparison_perm I).filter _).trans ?_
    rw [filter_of_map (mkRow I) (fun r => decide (r.ticker ∈ keys I.portfolio))
      (comparisonIndex I)]
    have hpred : (comparisonIndex I).filter
          (fun a => decide ((mkRow I a).ticker ∈ keys I.portfolio))
        = (comparisonIndex I).filter (fun t => decide (t ∈ keys I.portfolio)) := by
      apply List.filter_congr
      intro t _
      rw [ticker_mkRow]
    rw [hpred]
  have hidxfilter : ((comparisonIndex I).filter
        (fun t => decide (t ∈ keys I.portfolio))).Perm (keys I.portfolio) := by
    have h1 : ((comparisonIndex I).filter (fun t => decide (t ∈ keys I.portfolio))).Perm
        ((keyUnion (dfIndex I) (keys I.nasdaq)).filter
          (fun t => decide (t ∈ keys I.portfolio))) := (sortBy_perm _ _).filter _
    refine h1.trans ?_
    rw [keyUnion, List.filter_append]
    have h3 : (keyUnion (keys I.portfolio) (keys I.prices)).filter
        (fun t => decide (t ∈ keys I.portfolio)) = keys I.portfolio := by
      rw [keyUnion, List.filter_append]
      have ha : (keys I.portfolio).filter (fun t => decide (t ∈ keys I.portfolio))
          = keys I.portfolio := by
        apply List.filter_eq_self.mpr
        intro a ha
        simpa using ha
      have hb : ((keys I.prices).filter (fun t => !decide (t ∈ keys I.portfolio))).filter
          (fun t => decide (t ∈ keys I.portfolio)) = [] := by
        rw [List.filter_eq_nil_iff]
        intro a ha
        have hmem := (List.mem_filter.mp ha).2
        simpa using hmem
      rw [ha, hb, List.append_nil]
    have h2 : ((dfIndex I).filter (fun t => decide (t ∈ keys I.portfolio))).Perm
        (keys I.portfolio) := by
      refine ((sortBy_perm _ _).filter _).trans ?_
      rw [h3]
    have h4 : ((keys I.nasdaq).filter (fun t => !decide (t ∈ dfIndex I))).filter
        (fun t => decide (t ∈ keys I.portfolio)) = [] := by
      rw [List.filter_eq_nil_iff]
      intro a ha
      have hnotdf := (List.mem_filter.mp ha).2
      simp only [Bool.not_eq_true', decide_eq_false_iff_not] at hnotdf
      intro hdec
      exact hnotdf (mem_dfIndex.mpr (Or.inl (of_decide_eq_true hdec)))
    rw [h4, List.append_nil]
    exact h2
  have e1 : (((comparison I).filter (fun r => decide (r.ticker ∈ keys I.portfolio))).map
      (fun r => r.weight.toQ)).sum
      = ((keys I.portfolio).map (fun t => (mkRow I t).weight.toQ)).sum := by
    rw [(hfilter.map _).sum_eq, List.map_map, (hidxfilter.map _).sum_eq]
    rfl
  have e2 : ((keys I.portfolio).map (fun t => (mkRow I t).weight.toQ)).sum
      = (I.portfolio.map (fun e => 100 * (dfValue I e.1).toQ
          / (I.portfolio.map (fun e => (dfValue I e.1).toQ)).sum)).sum := by
    rw [keys, List.map_map]
    apply congrArg
    apply List.map_congr_left
    intro e he
    obtain ⟨q, hq, hq0⟩ := hpr e he
    have hs : qlookup I.portfolio e.1 = some e.2 := qlookup_of_mem_nodup hnd he
    have hdv := dfValue_lookup I hs hq
    have hw : dfWeight I e.1 = PyVal.num (100 * (e.2 * q)
        / (I.portfolio.map (fun e => (dfValue I e.1).toQ)).sum) := by
      unfold dfWeight
      rw [hdv, totalValue_eq I]
      simp [PyVal.mul, PyVal.div, hTne]
    simp [Function.comp, mkRow, hw, PyVal.fillna0, PyVal.toQ, hdv]
  rw [e1, e2]
  have e3 : I.portfolio.map (fun e => 100 * (dfValue I e.1).toQ
        / (I.portfolio.map (fun e => (dfValue I e.1).toQ)).sum)
      = I.portfolio.map (fun e => (100 / (I.portfolio.map
          (fun e => (dfValue I e.1).toQ)).sum) * (dfValue I e.1).toQ) := by
    apply List.map_congr_left
    intro e _
    ring
  rw [e3, List.sum_map_mul_left]
  exact div_mul_cancel₀ 100 hTne

/-- C3 witness: the amended weight-sum theorem applied to a one-holding
input with positive shares and a positive price. -/
theorem C3_weights_sum_amended_witness :
    (((comparison simpleInputs).filter
        (fun r => decide (r.ticker ∈ keys simpleInputs.portfolio))).map
      (fun r => r.weight.toQ)).sum = 100 :=
  C3_weights_sum_amended simpleInputs (by with_unfolding_all decide)
    (by with_unfolding_all decide) (by with_unfolding_all decide)
    (by
      intro e he
      have he' : e = (("A" : Ticker), (2 : ℚ)) := by
        have hport : simpleInputs.portfolio = [(("A" : Ticker), (2 : ℚ))] := rfl
        rw [hport, List.mem_singleton] at he
        exact he
      subst he'
      exact ⟨3, rfl, by norm_num⟩)

/-- C7 amended: whenever recommendPurchase returns a suggestion, the share
count is the purchase amount divided by a price, but the price source
depends on the selected ticker: the fetched price when the ticker has a
price entry, and an externally fetched quote (yfinance regularMarketPrice)
when the ticker is on neither the holdings nor the price index; no
MissingPriceError is ever raised. -/
theorem C7_shares_amended (I : Inputs) (extPrice : Ticker → ℚ) (s : Suggestion)
    (h : runRecommend I extPrice = Except.ok s) :
    (∀ p : ℚ, qlookup I.prices s.ticker = some p → p ≠ 0 →
      s.sharesToBuy = PyVal.num (purchaseAmount / p)) ∧
    (s.ticker ∉ keys I.portfolio → s.ticker ∉ keys I.prices →
      extPrice s.ticker ≠ 0 →
      s.sharesToBuy = PyVal.num (purchaseAmount / extPrice s.ticker)) := by
  rw [runRecommend, recommendPurchase] at h
  cases hm : sortBy (fun a b => ratLe a.2.1 b.2.1)
      (suggestionsOf (comparison I) (totalValue I).toQ purchaseAmount) with
  | nil =>
    rw [hm] at h
    exact Except.noConfusion h
  | cons hd tl =>
    rw [hm] at h
    obtain ⟨t, g, w⟩ := hd
    injection h with h
    subst h
    dsimp only
    constructor
    · intro p hp hp0
      have htIdx : t ∈ dfIndex I := mem_dfIndex.mpr (Or.inr (mem_keys_of_qlookup hp))
      rw [if_pos htIdx]
      unfold dfPrice
      rw [hp]
      simp [PyVal.div, hp0]
    · intro hnp hnpr hext
      have htIdx : t ∉ dfIndex I := by
        intro hmem
        rcases mem_dfIndex.mp hmem with hh | hh
        · exact hnp hh
        · exact hnpr hh
      rw [if_neg htIdx]
      simp [PyVal.div, hext]

/-- C7 witness: the amended shares theorem applied to the end-to-end
scenario, where the selected ticker MSFT has the fetched price 200 and the
returned share count is 1250/200. -/
theorem C7_shares_amended_witness :
    (∀ p : ℚ, qlookup scenarioInputs.prices tMSFT = some p → p ≠ 0 →
      PyVal.num (25/4) = PyVal.num (purchaseAmount / p)) ∧
    (tMSFT ∉ keys scenarioInputs.portfolio → tMSFT ∉ keys scenarioInputs.prices →
      extZero tMSFT ≠ 0 →
      PyVal.num (25/4) = PyVal.num (purchaseAmount / extZero tMSFT)) :=
  C7_shares_amended scenarioInputs extZero ⟨tMSFT, PyVal.num (25/4), 120/13, 60⟩
    (by with_unfolding_all decide)

/-- C10: implicit holdings invariant. The sidebar loop inserts exactly the
tickers whose submitted slider value is strictly positive, so every held
ticker has at least one share; the all-zero submission is represented as the
empty mapping; and a non-empty submitted portfolio whose tickers all have
positive prices has strictly positive total value. -/
theorem C10_positive_holdings (top20 : List Ticker) (submitted : Ticker → ℕ)
    (nasdaq prices : List (Ticker × ℚ))
    (hnd : top20.Nodup)
    (hpr : ∀ t ∈ top20, 0 < submitted t → ∃ q, qlookup prices t = some q ∧ 0 < q) :
    (∀ e ∈ buildPortfolio top20 submitted, 1 ≤ e.2) ∧
    (∀ t : Ticker, t ∈ keys (buildPortfolio top20 submitted) ↔
      t ∈ top20 ∧ 0 < submitted t) ∧
    (buildPortfolio top20 submitted = [] ↔ ∀ t ∈ top20, submitted t = 0) ∧
    (buildPortfolio top20 submitted ≠ [] →
      0 < (totalValue ⟨nasdaq, buildPortfolio top20 submitted, prices⟩).toQ) := by
  refine ⟨?_, ?_, ?_, ?_⟩
  · intro e he
    obtain ⟨t, ht, rfl⟩ := List.mem_map.mp he
    have hpos := (List.mem_filter.mp ht).2
    rw [decide_eq_true_eq] at hpos
    dsimp only
    exact_mod_cast Nat.one_le_iff_ne_zero.mpr (Nat.pos_iff_ne_zero.mp hpos)
  · intro t
    unfold buildPortfolio keys
    rw [List.map_map]
    constructor
    · intro ht
      obtain ⟨u, hu, hut⟩ := List.mem_map.mp ht
      have hu' := List.mem_filter.mp hu
      have := hu'.2
      rw [decide_eq_true_eq] at this
      have hut' : u = t := hut
      subst hut'
      exact ⟨hu'.1, this⟩
    · rintro ⟨ht, hpos⟩
      refine List.mem_map.mpr ⟨t, ?_, rfl⟩
      exact List.mem_filter.mpr ⟨ht, by simpa using hpos⟩
  · unfold buildPortfolio
    rw [List.map_eq_nil_iff, List.filter_eq_nil_iff]
    constructor
    · intro hall t ht
      have := hall t ht
      simpa using this
    · intro hall t ht
      simp [hall t ht]
  · intro hne
    have hkeys : keys (buildPortfolio top20 submitted)
        = top20.filter (fun t => decide (0 < submitted t)) := by
      unfold buildPortfolio keys
      have hmapfst : ∀ l : List Ticker,
          (l.map (fun t => (t, (submitted t : ℚ)))).map Prod.fst = l := by
        intro l
        induction l with
        | nil => rfl
        | cons a l ih => simp [ih]
      exact hmapfst _
    have hndP : (keys (buildPortfolio top20 submitted)).Nodup := by
      rw [hkeys]
      exact hnd.filter _
    have hpos2 : ∀ x ∈ (buildPortfolio top20 submitted).map
        (fun e => (dfValue ⟨nasdaq, buildPortfolio top20 submitted, prices⟩ e.1).toQ),
        0 < x := by
      intro x hx
      obtain ⟨e, he, rfl⟩ := List.mem_map.mp hx
      obtain ⟨t, ht, rfl⟩ := List.mem_map.mp he
      have htf := List.mem_filter.mp ht
      have hspos : 0 < submitted t := by simpa using htf.2
      obtain ⟨q, hq, hq0⟩ := hpr t htf.1 hspos
      have hsl : qlookup (buildPortfolio top20 submitted) t = some ((submitted t : ℚ)) := by
        apply qlookup_of_mem_nodup hndP
        exact List.mem_map.mpr ⟨t, ht, rfl⟩
      have hdv := dfValue_lookup ⟨nasdaq, buildPortfolio top20 submitted, prices⟩ hsl hq
      dsimp only
      rw [hdv]
      have hcast : (0:ℚ) < (submitted t : ℚ) := by exact_mod_cast hspos
      simpa [PyVal.toQ] using mul_pos hcast hq0
    have hne' : (buildPortfolio top20 submitted).map
        (fun e => (dfValue ⟨nasdaq, buildPortfolio top20 submitted, prices⟩ e.1).toQ)
        ≠ [] := by
      intro hmap
      exact hne (List.map_eq_nil_iff.mp hmap)
    rw [totalValue_eq]
    simpa [PyVal.toQ] using qsum_pos hne' hpos2

/-- C10 witness: the holdings-construction theorem applied to a one-ticker
universe with slider value 2 and price 10. -/
theorem C10_positive_holdings_witness :
    (∀ e ∈ buildPortfolio demoTop demoSubmitted, 1 ≤ e.2) ∧
    (∀ t : Ticker, t ∈ keys (buildPortfolio demoTop demoSubmitted) ↔
      t ∈ demoTop ∧ 0 < demoSubmitted t) ∧
    (buildPortfolio demoTop demoSubmitted = [] ↔ ∀ t ∈ demoTop, demoSubmitted t = 0) ∧
    (buildPortfolio demoTop demoSubmitted ≠ [] →
      0 < (totalValue ⟨[], buildPortfolio demoTop demoSubmitted, demoPrices⟩).toQ) :=
  C10_positive_holdings demoTop demoSubmitted [] demoPrices
    (by with_unfolding_all decide)
    (by
      intro t ht _
      have ht' : t = tAAPL := by
        have hd : demoTop = [tAAPL] := rfl
        rw [hd, List.mem_singleton] at ht
        exact ht
      subst ht'
      exact ⟨10, rfl, by norm_num⟩)

end Hobby
